import Mathlib

/-!
Verification of the CVA6 performance-model trackers of `cycle_count.py`
(fetch-queue occupancy model `IqLen`, return-address stack `Ras`, branch
history table `Bht`, functional-unit busy tracker `FusBusy`, trace
filtering and cycle counting) and of the delta-comparison entry point of
`compute_accuracy.py`.
-/

set_option maxRecDepth 8000

namespace CycleCount

/-- Python's bitwise `&` between an arbitrary integer and a nonnegative
mask, on the two's-complement view of the integer.  A nonnegative value
`n` contributes its own bits; a negative value `-(n + 1)` has as bit
pattern the complement of the bits of `n`, so exactly the mask bits that
are absent from `n` survive, which is `m - (n &&& m)`. -/
def pyLand : Int → Nat → Int
  | Int.ofNat n, m => Int.ofNat (n &&& m)
  | Int.negSucc n, m => Int.ofNat (m - (n &&& m))

/-- Modelled from the spec: the decode capability (`isa.Instr`) consumed by
the fetch-queue model is not among the sources under verification.  Per the
spec, an instruction carries its program address, its encoded byte size
(2 or 4), a compact-encoding flag (`is_compressed()`), and whether it
redirects control flow (`is_jump()`). -/
structure Instruction where
  address : Nat
  size : Nat
  compressed : Bool
  jump : Bool
deriving DecidableEq

/-- `Instruction.next_addr`: `self.address + self.size()`. -/
def Instruction.next_addr (i : Instruction) : Nat := i.address + i.size

/-- The fetch-size loop of `IqLen.__init__`:
`fetch_size = 4; while fetch_size < requested: fetch_size <<= 1`,
written with explicit fuel (structural recursion); fuel `requested` is
enough, as `growFetch_ge` below shows. -/
def growFetch : Nat → Nat → Nat → Nat
  | 0, fs, _ => fs
  | fuel + 1, fs, req => if fs < req then growFetch fuel (fs <<< 1) req else fs

/-- State of `IqLen`, the instruction-queue model: fetch width in bytes,
buffered byte count (a Python `int`, hence `Int`), and the
fresh-fetch-pending flag. -/
structure IqLen where
  fetch_size : Nat
  len : Int
  new_fetch : Bool
deriving DecidableEq

/-- `IqLen.__init__(fetch_size)`. -/
def IqLen.init (fetch_size : Nat) : IqLen :=
  let fs := growFetch fetch_size 4 fetch_size
  { fetch_size := fs, len := (fs : Int), new_fetch := true }

/-- `IqLen._addr_index(addr)`: `addr & (self.fetch_size - 1)`. -/
def IqLen.addr_index (q : IqLen) (addr : Int) : Int := pyLand addr (q.fetch_size - 1)

/-- `IqLen.fetch()`. -/
def IqLen.fetch (q : IqLen) : IqLen :=
  { q with len := q.len + (q.fetch_size : Int), new_fetch := true }

/-- `IqLen.flush()`. -/
def IqLen.flush (q : IqLen) : IqLen := { q with len := 0, new_fetch := false }

/-- `IqLen._truncate(index)`. -/
def IqLen.truncate (q : IqLen) (index : Int) : IqLen :=
  let occupancy : Int := (q.fetch_size : Int) - q.addr_index q.len
  let t0 := index - occupancy
  let to_remove := if t0 < 0 then t0 + (q.fetch_size : Int) else t0
  { q with len := q.len - to_remove }

/-- `IqLen.jump()`: drop the pending fetch chunk if one is pending, then
truncate with the default target index 0. -/
def IqLen.jump (q : IqLen) : IqLen :=
  let q1 := if q.new_fetch then
    { q with len := q.len - (q.fetch_size : Int), new_fetch := false } else q
  q1.truncate 0

/-- `IqLen._is_crossword(instr)`. -/
def IqLen.is_crossword (q : IqLen) (i : Instruction) : Bool :=
  let is_last := q.addr_index (i.address : Int) == (q.fetch_size : Int) - 2
  is_last && !i.compressed

/-- `IqLen.has(instr)`. -/
def IqLen.has (q : IqLen) (i : Instruction) : Bool :=
  let length : Int := if q.is_crossword i then q.len - ((q.fetch_size : Int) - 2) else q.len
  decide ((i.size : Int) ≤ length)

/-- `IqLen.remove(instr)`. -/
def IqLen.remove (q : IqLen) (i : Instruction) : IqLen :=
  let q1 := { q with len := q.len - (i.size : Int) }
  let q2 := q1.truncate (q1.addr_index (i.next_addr : Int))
  if i.jump then q2.jump else q2

/-- One operation on the fetch-queue model. `has` is a pure query. -/
inductive FqOp where
  | fetch
  | flush
  | jump
  | has (i : Instruction)
  | remove (i : Instruction)
deriving DecidableEq

/-- Effect of one operation on the queue state (`has` leaves it unchanged). -/
def FqOp.exec (q : IqLen) : FqOp → IqLen
  | .fetch => q.fetch
  | .flush => q.flush
  | .jump => q.jump
  | .has _ => q
  | .remove i => q.remove i

/-- Caller-contract guard: `remove i` may only run when `has i` holds. -/
def FqOp.guard (q : IqLen) : FqOp → Bool
  | .remove i => q.has i
  | _ => true

/-- Does every operation of the sequence respect its guard when reached? -/
def guardedRun : IqLen → List FqOp → Bool
  | _, [] => true
  | q, op :: rest => op.guard q && guardedRun (op.exec q) rest

/-- State after a sequence of operations. -/
def runOps (q : IqLen) (ops : List FqOp) : IqLen := ops.foldl FqOp.exec q

/-- The truncation rule exactly as the specification words it:
`occupancy = fetch_width − (buffered_length mod fetch_width)`;
`to_remove = target_index − occupancy`; if negative, add `fetch_width`;
subtract `to_remove` from the buffered length. -/
def truncateSpec (q : IqLen) (target_index : Int) : IqLen :=
  let occupancy : Int := (q.fetch_size : Int) - q.len % (q.fetch_size : Int)
  let t0 := target_index - occupancy
  let to_remove := if t0 < 0 then t0 + (q.fetch_size : Int) else t0
  { q with len := q.len - to_remove }

/-- The `jump()` discard as the specification words it: subtract one
fetch-width chunk if a fresh fetch is pending, then truncate with target
index 0. -/
def jumpSpec (q : IqLen) : IqLen :=
  let q1 := if q.new_fetch then
    { q with len := q.len - (q.fetch_size : Int), new_fetch := false } else q
  truncateSpec q1 0

/-- `remove` as the specification words it: subtract the instruction's
size, truncate to the offset of the next instruction's address within a
fetch word, then apply the `jump()` discard when the instruction redirects
control flow. -/
def removeSpec (q : IqLen) (i : Instruction) : IqLen :=
  let q1 := { q with len := q.len - (i.size : Int) }
  let q2 := truncateSpec q1 ((i.next_addr : Int) % (q1.fetch_size : Int))
  if i.jump then jumpSpec q2 else q2

/-! ### Return address stack -/

/-- State of `Ras`: the configured `depth - 1` bound (a Python `int`),
the stack of addresses (top at the end, as a Python list), and the
last-dropped register. -/
structure Ras where
  depth : Int
  stack : List Nat
  last_dropped : Option Nat
deriving DecidableEq

/-- `Ras.__init__(depth)`: the stored bound is `depth - 1`. -/
def Ras.init (depth : Int) : Ras :=
  { depth := depth - 1, stack := [], last_dropped := none }

/-- `Ras.push(addr)`: append; if the size exceeds the stored bound,
`pop(0)` discards the oldest (bottom) entry. -/
def Ras.push (r : Ras) (addr : Nat) : Ras :=
  let stack := r.stack ++ [addr]
  if (stack.length : Int) > r.depth then { r with stack := stack.tail }
  else { r with stack := stack }

/-- `Ras.drop()`: `pop()` the top (the last element) into `last_dropped`
when the stack is non-empty, else store `None`. -/
def Ras.drop (r : Ras) : Ras :=
  match r.stack.getLast? with
  | some a => { r with stack := r.stack.dropLast, last_dropped := some a }
  | none => { r with last_dropped := none }

/-- `Ras.read()`: return the last-dropped register without modifying it. -/
def Ras.read (r : Ras) : Option Nat :=
  match r.last_dropped with
  | some a => some a
  | none => none

/-- Pushing a list of addresses in order. -/
def Ras.pushAll (r : Ras) (l : List Nat) : Ras := l.foldl Ras.push r

/-! ### Branch history table -/

/-- A `Bht.Entry`: dataclass with defaults `valid = False`,
`sat_counter = 0` (a Python `int`). -/
structure BhtEntry where
  valid : Bool
  sat_counter : Int
deriving DecidableEq

def BhtEntry.initial : BhtEntry := { valid := false, sat_counter := 0 }

/-- `Bht`: a table of entries. -/
structure Bht where
  contents : List BhtEntry
deriving DecidableEq

/-- `Bht.__init__(entries)` (default 128). -/
def Bht.init (entries : Nat) : Bht :=
  { contents := List.replicate entries BhtEntry.initial }

/-- `Bht._index(addr)`: `(addr >> 1) % len(contents)`.  (For an empty
table Python would raise on `% 0`; the constructor always builds a
non-empty one.) -/
def Bht.index (b : Bht) (addr : Nat) : Nat := (addr >>> 1) % b.contents.length

/-- `Bht.predict(addr)`: `none` when the indexed slot was never trained.
The `getD` default is unreachable for the non-empty tables the
constructor builds. -/
def Bht.predict (b : Bht) (addr : Nat) : Option Bool :=
  let entry := b.contents.getD (b.index addr) BhtEntry.initial
  if entry.valid then some (decide (entry.sat_counter ≥ 2)) else none

/-- The slot read `self.contents[index]`, with the constructor's default
entry as out-of-range fallback (unreachable for the non-empty tables the
constructor builds). -/
def Bht.slot (b : Bht) (j : Nat) : BhtEntry := b.contents.getD j BhtEntry.initial

/-- The entry update performed by `Bht.resolve`: mark valid, then nudge
the saturating counter toward the outcome. -/
def resolveEntry (entry : BhtEntry) (taken : Bool) : BhtEntry :=
  let entry := { entry with valid := true }
  if taken then
    if entry.sat_counter < 3 then { entry with sat_counter := entry.sat_counter + 1 }
    else entry
  else
    if entry.sat_counter > 0 then { entry with sat_counter := entry.sat_counter - 1 }
    else entry

/-- `Bht.resolve(addr, taken)`: store the updated entry back at the
indexed slot. -/
def Bht.resolve (b : Bht) (addr : Nat) (taken : Bool) : Bht :=
  let i := b.index addr
  { b with contents := b.contents.set i (resolveEntry (b.contents.getD i BhtEntry.initial) taken) }

/-- Folding a sequence of `resolve` calls over the table. -/
def Bht.applyResolves (b : Bht) (ops : List (Nat × Bool)) : Bht :=
  ops.foldl (fun b p => b.resolve p.1 p.2) b

/-! ### Functional-unit busy tracker -/

/-- The functional-unit enumeration `Fu`. -/
inductive Fu where
  | ALU
  | MUL
  | BRANCH
  | LDU
  | STU
deriving DecidableEq

/-- `FusBusy` state: the optional-second-ALU switch, one busy flag per
unit, and the multiply-issued-this-cycle flag. -/
structure FusBusy where
  has_alu2 : Bool
  alu : Bool
  mul : Bool
  branch : Bool
  ldu : Bool
  stu : Bool
  alu2 : Bool
  issued_mul : Bool
deriving DecidableEq

/-- `FusBusy.__init__(has_alu2)`. -/
def FusBusy.init (has_alu2 : Bool) : FusBusy :=
  { has_alu2 := has_alu2, alu := false, mul := false, branch := false,
    ldu := false, stu := false, alu2 := false, issued_mul := false }

/-- `FusBusy._alu2_ready()`. -/
def FusBusy.alu2_ready (f : FusBusy) : Bool := f.has_alu2 && !f.alu2

/-- `FusBusy.is_ready(fu)`. -/
def FusBusy.is_ready (f : FusBusy) : Fu → Bool
  | .ALU => f.alu2_ready || !f.alu
  | .MUL => !f.mul
  | .BRANCH => !f.branch
  | .LDU => !f.ldu
  | .STU => !f.stu

/-- `FusBusy.issue_alu()`: `none` models the `assert not self.alu`
failing (issuing into a busy unit). -/
def FusBusy.issue_alu (f : FusBusy) : Option FusBusy :=
  if !f.alu2_ready then
    if f.alu then none
    else some { f with alu := true, branch := true }
  else some { f with alu2 := true }

/-- `FusBusy.issue_mul()`. -/
def FusBusy.issue_mul (f : FusBusy) : FusBusy :=
  { f with mul := true, issued_mul := true }

/-- `FusBusy.issue_branch()`: stores are not allowed to co-issue. -/
def FusBusy.issue_branch (f : FusBusy) : FusBusy :=
  { f with alu := true, branch := true, stu := true }

/-- `FusBusy.issue_ldu()`. -/
def FusBusy.issue_ldu (f : FusBusy) : FusBusy :=
  { f with ldu := true, stu := true }

/-- `FusBusy.issue_stu()`. -/
def FusBusy.issue_stu (f : FusBusy) : FusBusy :=
  { f with stu := true, ldu := true }

/-- `FusBusy.cycle()`: clear all busy flags, re-arming ALU and BRANCH
when a multiply was issued the previous cycle. -/
def FusBusy.cycle (f : FusBusy) : FusBusy :=
  { f with
      alu := f.issued_mul
      mul := false
      branch := f.issued_mul
      ldu := false
      stu := false
      alu2 := false
      issued_mul := false }

/-! ### Trace filtering and cycle counting -/

/-- The attributes of a parsed trace line that the timed-region filter
and the cycle counter consume: the hex opcode text (regex group 3; the
marker test is a substring test on it) and the trace-reported cycle
(regex group 4, a decimal literal, here already converted). -/
structure TraceInstr where
  hex_code : String
  cycle : Int
deriving DecidableEq

/-- Does the character list start with the given pattern? -/
def startsWithL : List Char → List Char → Bool
  | [], _ => true
  | _ :: _, [] => false
  | p :: ps, c :: cs => p == c && startsWithL ps cs

/-- Does the pattern occur contiguously anywhere in the character list? -/
def containsSub (pat : List Char) : List Char → Bool
  | [] => pat.isEmpty
  | c :: rest => startsWithL pat (c :: rest) || containsSub pat rest

/-- The marker test of `filter_timed_part`: `"32951073" in instr.hex_code`
(Python substring containment). -/
def hasMarker (s : String) : Bool := containsSub "32951073".toList s.toList

/-- The accumulator loop of `filter_timed_part`: each marker line toggles
`accepting` and is itself skipped; other lines are kept iff `accepting`. -/
def filterTimedGo (accepting : Bool) : List TraceInstr → List TraceInstr
  | [] => []
  | i :: rest =>
    if hasMarker i.hex_code then filterTimedGo (!accepting) rest
    else if accepting then i :: filterTimedGo accepting rest
    else filterTimedGo accepting rest

/-- `filter_timed_part(all_instructions)`: `accepting` starts `False`. -/
def filter_timed_part (l : List TraceInstr) : List TraceInstr :=
  filterTimedGo false l

/-- Number of marker lines in a trace. -/
def countMarkers (l : List TraceInstr) : Nat :=
  (l.filter (fun i => hasMarker i.hex_code)).length

/-- `count_cycles(retired)`: `int(retired[-1].cycle) - int(retired[0].cycle)`;
indexing an empty list raises `IndexError`. -/
def count_cycles : List TraceInstr → Except String Int
  | [] => Except.error "IndexError"
  | i :: rest => Except.ok ((rest.getLastD i).cycle - i.cycle)

/-- `print_stats(instructions, ...)`: computes the cycle count, then
`1000000 / n_cycles` (`ZeroDivisionError` when the count is zero; the
float quotient is modelled as the exact rational), and the instruction
count. -/
def print_stats (instructions : List TraceInstr) : Except String (Int × ℚ × Nat) :=
  match count_cycles instructions with
  | Except.error e => Except.error e
  | Except.ok n_cycles =>
    if n_cycles = 0 then Except.error "ZeroDivisionError"
    else Except.ok (n_cycles, 1000000 / (n_cycles : ℚ), instructions.length)

/-- `main(input_file)` after parsing: statistics of the timed region. -/
def run_cycle_count (trace : List TraceInstr) : Except String (Int × ℚ × Nat) :=
  print_stats (filter_timed_part trace)

/-! ### compute_accuracy.py -/

/-- `compute_deltas(cycles)`: consecutive differences. -/
def compute_deltas (cycles : List Int) : List Int :=
  List.zipWith (fun a b => a - b) cycles.tail cycles

/-- `compare_deltas(deltas1, deltas2)`: how many aligned pairs agree. -/
def compare_deltas (d1 d2 : List Int) : Nat :=
  ((d1.zip d2).filter (fun p => p.1 == p.2)).length

/-- Outcome of `compute_accuracy.main` past parsing: either the
insufficient-data report (printed, then `return`) or the matching-delta
count. -/
inductive AccuracyOutcome where
  | insufficient
  | report (matching : Nat)
deriving DecidableEq

/-- `compute_accuracy.main` on the two collected cycle lists: fewer than
two cycles on either side is reported as insufficient data and the
computation is skipped. -/
def accuracy_main (cycles1 cycles2 : List Int) : AccuracyOutcome :=
  if cycles1.length < 2 ∨ cycles2.length < 2 then AccuracyOutcome.insufficient
  else AccuracyOutcome.report
    (compare_deltas (compute_deltas cycles1) (compute_deltas cycles2))

end CycleCount


namespace CycleCount

/-! ### Arithmetic bridge: Python `&` with a power-of-two mask is `emod` -/

theorem pyLand_two_pow_sub_one (a : Int) (k : Nat) :
    pyLand a (2 ^ k - 1) = a % ((2 : Int) ^ k) := by
  have hK : (0 : Nat) < 2 ^ k := by positivity
  have hKi : ((2 ^ k : Nat) : Int) = (2 : Int) ^ k := by push_cast; ring
  cases a with
  | ofNat n =>
    show (Int.ofNat (n &&& (2 ^ k - 1))) = _
    rw [Nat.and_pow_two_sub_one_eq_mod]
    have : ((n % 2 ^ k : Nat) : Int) = (n : Int) % ((2 : Int) ^ k) := by push_cast; ring
    exact this
  | negSucc n =>
    show (Int.ofNat ((2 ^ k - 1) - (n &&& (2 ^ k - 1)))) = _
    rw [Nat.and_pow_two_sub_one_eq_mod]
    have hr : n % 2 ^ k < 2 ^ k := Nat.mod_lt _ hK
    have hpush : ((n % 2 ^ k : Nat) : Int) = (n : Int) % ((2 : Int) ^ k) := by
      push_cast; ring
    have hcast : (Int.ofNat ((2 ^ k - 1) - n % 2 ^ k)) =
        (2 : Int) ^ k - 1 - (n : Int) % ((2 : Int) ^ k) := by
      rw [← hpush, ← hKi, Int.ofNat_eq_natCast]; omega
    have key : -((n : Int) + 1) =
        ((2 : Int) ^ k - 1 - (n : Int) % ((2 : Int) ^ k)) +
          (2 : Int) ^ k * (-((n : Int) / ((2 : Int) ^ k)) - 1) := by
      rw [Int.emod_def]; ring
    have hm0 : (0 : Int) ≤ (n : Int) % ((2 : Int) ^ k) :=
      Int.emod_nonneg _ (pow_ne_zero k two_ne_zero)
    have hmK : (n : Int) % ((2 : Int) ^ k) < (2 : Int) ^ k :=
      Int.emod_lt_of_pos _ (by positivity)
    have hKi1 : (1 : Int) ≤ (2 : Int) ^ k := by exact_mod_cast Nat.one_le_two_pow
    have hfin : (-((n : Int) + 1)) % ((2 : Int) ^ k) =
        (2 : Int) ^ k - 1 - (n : Int) % ((2 : Int) ^ k) := by
      rw [key, Int.add_mul_emod_self_left]
      exact Int.emod_eq_of_lt (by omega) (by omega)
    rw [hcast, Int.negSucc_eq, hfin]

theorem addr_index_eq_emod (q : IqLen) (k : Nat) (hfs : q.fetch_size = 2 ^ k)
    (a : Int) : q.addr_index a = a % (q.fetch_size : Int) := by
  unfold IqLen.addr_index
  rw [hfs, pyLand_two_pow_sub_one]
  norm_num

theorem addr_index_nonneg (q : IqLen) (k : Nat) (hfs : q.fetch_size = 2 ^ k)
    (a : Int) : 0 ≤ q.addr_index a := by
  rw [addr_index_eq_emod q k hfs]
  refine Int.emod_nonneg _ ?_
  rw [hfs]
  exact_mod_cast pow_ne_zero k (two_ne_zero)

theorem addr_index_lt (q : IqLen) (k : Nat) (hfs : q.fetch_size = 2 ^ k)
    (a : Int) : q.addr_index a < (q.fetch_size : Int) := by
  rw [addr_index_eq_emod q k hfs]
  refine Int.emod_lt_of_pos _ ?_
  rw [hfs]
  positivity

/-! ### The fetch-size loop computes the least power of two that fits -/

theorem growFetch_ge (fuel fs req : Nat) (h0 : 0 < fs) (h : req ≤ fuel + fs) :
    req ≤ growFetch fuel fs req := by
  induction fuel generalizing fs with
  | zero => simpa [growFetch] using h
  | succ n ih =>
    rw [growFetch]
    split
    · exact ih (fs <<< 1) (by rw [Nat.shiftLeft_eq, pow_one]; omega)
        (by rw [Nat.shiftLeft_eq, pow_one]; omega)
    · omega

theorem le_growFetch (fuel fs req : Nat) : fs ≤ growFetch fuel fs req := by
  induction fuel generalizing fs with
  | zero => simp [growFetch]
  | succ n ih =>
    rw [growFetch]
    split
    · calc fs ≤ fs <<< 1 := by rw [Nat.shiftLeft_eq, pow_one]; omega
        _ ≤ _ := ih (fs <<< 1)
    · exact Nat.le_refl fs

theorem growFetch_pow2 (fuel fs req : Nat) (h : ∃ j, fs = 2 ^ j) :
    ∃ j, growFetch fuel fs req = 2 ^ j := by
  induction fuel generalizing fs with
  | zero => simpa [growFetch] using h
  | succ n ih =>
    rw [growFetch]
    split
    · refine ih (fs <<< 1) ?_
      obtain ⟨j, rfl⟩ := h
      exact ⟨j + 1, by rw [Nat.shiftLeft_eq]; ring⟩
    · exact h

theorem growFetch_min (fuel fs req m : Nat) (hfs : ∃ j, fs = 2 ^ j)
    (hm : ∃ j, m = 2 ^ j) (h1 : fs ≤ m) (h2 : req ≤ m) :
    growFetch fuel fs req ≤ m := by
  induction fuel generalizing fs with
  | zero => simpa [growFetch] using h1
  | succ n ih =>
    rw [growFetch]
    split
    · next hlt =>
      obtain ⟨j, rfl⟩ := hfs
      obtain ⟨jm, rfl⟩ := hm
      have hjlt : j < jm := by
        by_contra hc
        have : 2 ^ jm ≤ 2 ^ j := Nat.pow_le_pow_right (by omega) (by omega)
        omega
      refine ih (2 ^ j <<< 1) ⟨j + 1, by rw [Nat.shiftLeft_eq]; ring⟩ ?_
      rw [Nat.shiftLeft_eq]
      calc 2 ^ j * 2 ^ 1 = 2 ^ (j + 1) := by ring
        _ ≤ 2 ^ jm := Nat.pow_le_pow_right (by omega) (by omega)
    · exact h1

theorem init_fetch_size_pow2 (req : Nat) :
    ∃ k, (IqLen.init req).fetch_size = 2 ^ k ∧ 2 ≤ k := by
  obtain ⟨k, hk⟩ := growFetch_pow2 req 4 req ⟨2, rfl⟩
  refine ⟨k, hk, ?_⟩
  have h4 : 4 ≤ growFetch req 4 req := le_growFetch req 4 req
  have hdef : (IqLen.init req).fetch_size = growFetch req 4 req := rfl
  by_contra hc
  have : 2 ^ k ≤ 2 ^ 1 := Nat.pow_le_pow_right (by omega) (by omega)
  omega

end CycleCount

namespace CycleCount

/-! ### Helper characterizations of the queue operations -/

theorem addr_index_natCast (q : IqLen) (k : Nat) (hfs : q.fetch_size = 2 ^ k)
    (a : Nat) : q.addr_index (a : Int) = ((a % q.fetch_size : Nat) : Int) := by
  rw [addr_index_eq_emod q k hfs]
  push_cast
  ring

theorem fetch_size_ge_four (q : IqLen) (k : Nat) (hfs : q.fetch_size = 2 ^ k)
    (hk : 2 ≤ k) : 4 ≤ q.fetch_size := by
  rw [hfs]
  calc 4 = 2 ^ 2 := rfl
    _ ≤ 2 ^ k := Nat.pow_le_pow_right (by omega) hk

theorem is_crossword_eq (q : IqLen) (i : Instruction) (k : Nat)
    (hfs : q.fetch_size = 2 ^ k) (hk : 2 ≤ k) :
    q.is_crossword i =
      decide (i.address % q.fetch_size = q.fetch_size - 2 ∧ i.compressed = false) := by
  have h4 : 4 ≤ q.fetch_size := fetch_size_ge_four q k hfs hk
  unfold IqLen.is_crossword
  rw [addr_index_natCast q k hfs]
  cases hcomp : i.compressed <;>
    by_cases h : i.address % q.fetch_size = q.fetch_size - 2 <;>
      simp [h, hcomp, beq_iff_eq] <;> omega

/-- C1: `has(i)` holds exactly when the buffered byte count, reduced by
`fetch_width − 2` precisely when `i`'s address offset within a fetch word
equals `fetch_width − 2` and `i` is not compact-encoded, is at least
`i`'s size. -/
theorem has_iff_buffered_enough (q : IqLen) (i : Instruction) (k : Nat)
    (hfs : q.fetch_size = 2 ^ k) (hk : 2 ≤ k) :
    q.has i = true ↔
      (i.size : Int) ≤ q.len -
        (if i.address % q.fetch_size = q.fetch_size - 2 ∧ i.compressed = false
         then (q.fetch_size : Int) - 2 else 0) := by
  unfold IqLen.has
  rw [is_crossword_eq q i k hfs hk]
  simp only [decide_eq_true_eq]
  by_cases h : i.address % q.fetch_size = q.fetch_size - 2 ∧ i.compressed = false
  · simp [h]
  · simp [h]

/-- Witness for C1 at the freshly constructed queue of width 4 and a
4-byte instruction at address 2 (a crossword position). -/
theorem has_iff_buffered_enough_witness :
    (IqLen.init 4).fetch_size = 2 ^ 2 ∧ 2 ≤ 2 ∧
      ((IqLen.init 4).has ⟨2, 4, false, false⟩ = true ↔
        ((4 : Nat) : Int) ≤ (IqLen.init 4).len -
          (if (2 : Nat) % (IqLen.init 4).fetch_size = (IqLen.init 4).fetch_size - 2 ∧
              false = false
           then ((IqLen.init 4).fetch_size : Int) - 2 else 0)) :=
  ⟨by decide, by decide,
    has_iff_buffered_enough (IqLen.init 4) ⟨2, 4, false, false⟩ 2 (by decide) (by decide)⟩

theorem truncate_eq_spec (q : IqLen) (k : Nat) (hfs : q.fetch_size = 2 ^ k)
    (idx : Int) : q.truncate idx = truncateSpec q idx := by
  unfold IqLen.truncate truncateSpec
  rw [addr_index_eq_emod q k hfs]

theorem jump_eq_spec (q : IqLen) (k : Nat) (hfs : q.fetch_size = 2 ^ k) :
    q.jump = jumpSpec q := by
  unfold IqLen.jump jumpSpec
  dsimp only
  refine truncate_eq_spec _ k ?_ 0
  cases hnf : q.new_fetch <;> simp [hnf, hfs]

/-- C2: `remove(i)` subtracts `i`'s size, truncates by the spec's rule
(`occupancy = fetch_width − (buffered_length mod fetch_width)`,
`to_remove = next-address offset − occupancy`, plus `fetch_width` when
negative), and additionally applies the `jump()` discard when `i`
redirects control flow. -/
theorem remove_eq_removeSpec (q : IqLen) (i : Instruction) (k : Nat)
    (hfs : q.fetch_size = 2 ^ k) : q.remove i = removeSpec q i := by
  unfold IqLen.remove removeSpec
  dsimp only
  have hfs1 : ({ q with len := q.len - (i.size : Int) } : IqLen).fetch_size = 2 ^ k := hfs
  rw [addr_index_eq_emod _ k hfs1, truncate_eq_spec _ k hfs1]
  cases hj : i.jump
  · simp only [Bool.false_eq_true, if_false]
  · simp only [if_true]
    exact jump_eq_spec _ k hfs1

/-- Witness for C2 at the freshly constructed queue of width 4 and a
4-byte jump instruction at address 0. -/
theorem remove_eq_removeSpec_witness :
    (IqLen.init 4).fetch_size = 2 ^ 2 ∧
      (IqLen.init 4).remove ⟨0, 4, false, true⟩ = removeSpec (IqLen.init 4) ⟨0, 4, false, true⟩ :=
  ⟨by decide, remove_eq_removeSpec (IqLen.init 4) ⟨0, 4, false, true⟩ 2 (by decide)⟩


/-! ### Bounds on the queue length (claim C3) -/

theorem has_size_le_len (q : IqLen) (i : Instruction) (k : Nat)
    (hfs : q.fetch_size = 2 ^ k) (hk : 2 ≤ k) (h : q.has i = true) :
    (i.size : Int) ≤ q.len := by
  have h4 : 4 ≤ q.fetch_size := fetch_size_ge_four q k hfs hk
  unfold IqLen.has at h
  simp only [decide_eq_true_eq] at h
  split at h <;> omega

theorem truncate_len_bounds (q : IqLen) (k : Nat) (hfs : q.fetch_size = 2 ^ k)
    (idx : Int) (h0 : 0 ≤ idx) (h1 : idx < (q.fetch_size : Int)) :
    q.len - ((q.fetch_size : Int) - 1) ≤ (q.truncate idx).len ∧
      (q.truncate idx).len ≤ q.len := by
  have hm0 : 0 ≤ q.addr_index q.len := addr_index_nonneg q k hfs q.len
  have hm1 : q.addr_index q.len < (q.fetch_size : Int) := addr_index_lt q k hfs q.len
  unfold IqLen.truncate
  dsimp only
  constructor <;> split <;> omega

theorem truncate_zero_len (q : IqLen) (k : Nat) (hfs : q.fetch_size = 2 ^ k) :
    (q.truncate 0).len = q.len - q.len % (q.fetch_size : Int) := by
  have hm0 : 0 ≤ q.addr_index q.len := addr_index_nonneg q k hfs q.len
  have hm1 : q.addr_index q.len < (q.fetch_size : Int) := addr_index_lt q k hfs q.len
  have he : q.addr_index q.len = q.len % (q.fetch_size : Int) :=
    addr_index_eq_emod q k hfs q.len
  unfold IqLen.truncate
  dsimp only
  split <;> omega

theorem sub_emod_lower_bound (a K c : Int) (hK : 0 < K) (h : c * K ≤ a) :
    c * K ≤ a - a % K := by
  have hdiv : c ≤ a / K := (Int.le_ediv_iff_mul_le hK).mpr h
  have heq : a - a % K = K * (a / K) := by
    rw [Int.emod_def]; ring
  rw [heq]
  calc c * K = K * c := by ring
    _ ≤ K * (a / K) := by
      exact Int.mul_le_mul_of_nonneg_left hdiv (by omega)

theorem exec_fetch_size (q : IqLen) (op : FqOp) :
    (op.exec q).fetch_size = q.fetch_size := by
  cases op with
  | fetch => rfl
  | flush => rfl
  | jump =>
    show (IqLen.jump q).fetch_size = q.fetch_size
    unfold IqLen.jump IqLen.truncate
    dsimp only
    split <;> rfl
  | has i => rfl
  | remove i =>
    show (IqLen.remove q i).fetch_size = q.fetch_size
    unfold IqLen.remove IqLen.jump IqLen.truncate
    dsimp only
    split
    · split <;> rfl
    · rfl

theorem runOps_fetch_size (q : IqLen) (ops : List FqOp) :
    (runOps q ops).fetch_size = q.fetch_size := by
  induction ops generalizing q with
  | nil => rfl
  | cons op rest ih =>
    show (runOps (op.exec q) rest).fetch_size = q.fetch_size
    rw [ih, exec_fetch_size]

/-- The state invariant the queue operations actually maintain: the
buffered length never drops below `-2 * fetch_size`, and stays at or
above `-fetch_size` whenever a fresh fetch is pending. -/
def IqLen.Inv (q : IqLen) : Prop :=
  -2 * (q.fetch_size : Int) ≤ q.len ∧
    (q.new_fetch = true → -(q.fetch_size : Int) ≤ q.len)

theorem truncate_fetch_size (q : IqLen) (idx : Int) :
    (q.truncate idx).fetch_size = q.fetch_size := rfl

theorem truncate_new_fetch (q : IqLen) (idx : Int) :
    (q.truncate idx).new_fetch = q.new_fetch := rfl

theorem jump_inv (q : IqLen) (k : Nat) (hfs : q.fetch_size = 2 ^ k) (hk : 2 ≤ k)
    (h : q.Inv) : (q.jump).Inv := by
  have h4 : 4 ≤ q.fetch_size := fetch_size_ge_four q k hfs hk
  obtain ⟨hlo, hnf⟩ := h
  unfold IqLen.jump
  dsimp only
  cases hn : q.new_fetch with
  | true =>
    have hnf2 : -(q.fetch_size : Int) ≤ q.len := hnf hn
    rw [if_pos rfl]
    set q1 : IqLen :=
      { q with len := q.len - (q.fetch_size : Int), new_fetch := false } with hq1
    have hfs1 : q1.fetch_size = 2 ^ k := hfs
    have hq1len : q1.len = q.len - (q.fetch_size : Int) := rfl
    have hq1fs : q1.fetch_size = q.fetch_size := rfl
    have hz := truncate_zero_len q1 k hfs1
    have hbound := sub_emod_lower_bound q1.len (q1.fetch_size : Int) (-2)
      (by omega) (by omega)
    have hfs2 : (q1.truncate 0).fetch_size = q1.fetch_size := truncate_fetch_size q1 0
    have hnf3 : (q1.truncate 0).new_fetch = false := truncate_new_fetch q1 0
    refine ⟨by omega, fun hcontra => ?_⟩
    rw [hnf3] at hcontra
    simp at hcontra
  | false =>
    rw [if_neg (by simp)]
    have hz := truncate_zero_len q k hfs
    have hbound := sub_emod_lower_bound q.len (q.fetch_size : Int) (-2)
      (by omega) (by omega)
    have hfs2 : (q.truncate 0).fetch_size = q.fetch_size := truncate_fetch_size q 0
    have hnf3 : (q.truncate 0).new_fetch = q.new_fetch := truncate_new_fetch q 0
    refine ⟨by omega, fun hcontra => ?_⟩
    rw [hnf3, hn] at hcontra
    simp at hcontra

theorem remove_inv (q : IqLen) (i : Instruction) (k : Nat)
    (hfs : q.fetch_size = 2 ^ k) (hk : 2 ≤ k) (hinv : q.Inv)
    (hguard : q.has i = true) : (q.remove i).Inv := by
  have h4 : 4 ≤ q.fetch_size := fetch_size_ge_four q k hfs hk
  have hsize : (i.size : Int) ≤ q.len := has_size_le_len q i k hfs hk hguard
  obtain ⟨hlo, hnf⟩ := hinv
  unfold IqLen.remove
  dsimp only
  set q1 : IqLen := { q with len := q.len - (i.size : Int) } with hq1
  have hfs1 : q1.fetch_size = 2 ^ k := hfs
  have hq1len : q1.len = q.len - (i.size : Int) := rfl
  have hq1fs : q1.fetch_size = q.fetch_size := rfl
  have hidx0 : 0 ≤ q1.addr_index (i.next_addr : Int) :=
    addr_index_nonneg q1 k hfs1 _
  have hidx1 : q1.addr_index (i.next_addr : Int) < (q1.fetch_size : Int) :=
    addr_index_lt q1 k hfs1 _
  have hb := truncate_len_bounds q1 k hfs1 _ hidx0 hidx1
  set q2 : IqLen := q1.truncate (q1.addr_index (i.next_addr : Int)) with hq2
  have hfs2 : q2.fetch_size = q1.fetch_size := truncate_fetch_size q1 _
  have hnf2 : q2.new_fetch = q1.new_fetch := truncate_new_fetch q1 _
  have hinv2 : q2.Inv := ⟨by omega, fun _ => by omega⟩
  cases hj : i.jump
  · rw [if_neg (by simp)]
    exact hinv2
  · rw [if_pos rfl]
    exact jump_inv q2 k (by rw [hfs2, hfs1]) hk hinv2

theorem exec_inv (q : IqLen) (op : FqOp) (k : Nat) (hfs : q.fetch_size = 2 ^ k)
    (hk : 2 ≤ k) (hinv : q.Inv) (hg : op.guard q = true) : (op.exec q).Inv := by
  obtain ⟨hlo, hnf⟩ := hinv
  cases op with
  | fetch =>
    have h1 : (FqOp.exec q FqOp.fetch).len = q.len + (q.fetch_size : Int) := rfl
    have h2 : (FqOp.exec q FqOp.fetch).fetch_size = q.fetch_size := rfl
    exact ⟨by omega, fun _ => by omega⟩
  | flush =>
    have h1 : (FqOp.exec q FqOp.flush).len = 0 := rfl
    have h2 : (FqOp.exec q FqOp.flush).fetch_size = q.fetch_size := rfl
    have h3 : (FqOp.exec q FqOp.flush).new_fetch = false := rfl
    refine ⟨by omega, fun hcontra => ?_⟩
    rw [h3] at hcontra
    simp at hcontra
  | jump => exact jump_inv q k hfs hk ⟨hlo, hnf⟩
  | has i => exact ⟨hlo, hnf⟩
  | remove i =>
    exact remove_inv q i k hfs hk ⟨hlo, hnf⟩ (by simpa [FqOp.guard] using hg)

theorem init_inv (req : Nat) : (IqLen.init req).Inv := by
  have hlen : (IqLen.init req).len = ((IqLen.init req).fetch_size : Int) := rfl
  refine ⟨?_, fun _ => ?_⟩ <;> omega

theorem runOps_inv (ops : List FqOp) (q : IqLen) (k : Nat)
    (hfs : q.fetch_size = 2 ^ k) (hk : 2 ≤ k) (hinv : q.Inv)
    (hg : guardedRun q ops = true) : (runOps q ops).Inv := by
  induction ops generalizing q with
  | nil => exact hinv
  | cons op rest ih =>
    rw [guardedRun, Bool.and_eq_true] at hg
    show (runOps (op.exec q) rest).Inv
    exact ih (op.exec q) (by rw [exec_fetch_size]; exact hfs)
      (exec_inv q op k hfs hk hinv hg.1) hg.2

/-- C3 counterexample: starting from a freshly constructed model of
requested fetch size 4, removing a 4-byte control-flow-redirecting
instruction at address 0 — allowed, since `has` holds for it — leaves a
negative buffered byte count. -/
theorem fetch_queue_len_negative_cex :
    guardedRun (IqLen.init 4) [FqOp.remove ⟨0, 4, false, true⟩] = true ∧
      (runOps (IqLen.init 4) [FqOp.remove ⟨0, 4, false, true⟩]).len < 0 :=
  ⟨by decide, by decide⟩

/-- C3 (amended): over every guarded operation sequence from a fresh
model, the buffered byte count stays at or above `-2 * fetch_width`, and
at or above `-fetch_width` whenever a fresh fetch is pending — but it can
become negative. -/
theorem fetch_queue_len_lower_bound (req : Nat) (ops : List FqOp)
    (hg : guardedRun (IqLen.init req) ops = true) :
    -2 * (((IqLen.init req).fetch_size : Int)) ≤ (runOps (IqLen.init req) ops).len ∧
      ((runOps (IqLen.init req) ops).new_fetch = true →
        -((IqLen.init req).fetch_size : Int) ≤ (runOps (IqLen.init req) ops).len) := by
  obtain ⟨k, hfs, hk⟩ := init_fetch_size_pow2 req
  obtain ⟨h1, h2⟩ := runOps_inv ops (IqLen.init req) k hfs hk (init_inv req) hg
  have hfsr := runOps_fetch_size (IqLen.init req) ops
  exact ⟨by omega, fun hn => by have := h2 hn; omega⟩

/-- Witness for the amended C3 bound on a concrete guarded sequence. -/
theorem fetch_queue_len_lower_bound_witness :
    guardedRun (IqLen.init 4) [FqOp.fetch, FqOp.jump, FqOp.flush] = true ∧
      -2 * (((IqLen.init 4).fetch_size : Int)) ≤
        (runOps (IqLen.init 4) [FqOp.fetch, FqOp.jump, FqOp.flush]).len :=
  ⟨by decide, (fetch_queue_len_lower_bound 4 [FqOp.fetch, FqOp.jump, FqOp.flush]
    (by decide)).1⟩


/-! ### The freshly constructed queue (claim C10) -/

/-- C10: a fresh model's fetch width is the least power of two at least
the requested size and at least 4, the buffered count starts at one full
fetch width with a fresh fetch pending, and `has` already holds for any
word-aligned instruction no larger than the fetch width. -/
theorem init_starts_full (req : Nat) :
    (∃ k, (IqLen.init req).fetch_size = 2 ^ k) ∧
    4 ≤ (IqLen.init req).fetch_size ∧
    req ≤ (IqLen.init req).fetch_size ∧
    (∀ m, (∃ j, m = 2 ^ j) → 4 ≤ m → req ≤ m → (IqLen.init req).fetch_size ≤ m) ∧
    (IqLen.init req).len = ((IqLen.init req).fetch_size : Int) ∧
    (IqLen.init req).new_fetch = true ∧
    (∀ i : Instruction, i.address % (IqLen.init req).fetch_size = 0 →
      i.size ≤ (IqLen.init req).fetch_size → (IqLen.init req).has i = true) := by
  obtain ⟨k, hfs, hk⟩ := init_fetch_size_pow2 req
  have hdef : (IqLen.init req).fetch_size = growFetch req 4 req := rfl
  have h4 : 4 ≤ (IqLen.init req).fetch_size := by
    rw [hdef]; exact le_growFetch req 4 req
  refine ⟨⟨k, hfs⟩, h4, ?_, ?_, rfl, rfl, ?_⟩
  · rw [hdef]
    exact growFetch_ge req 4 req (by omega) (by omega)
  · intro m hm h4m hreqm
    rw [hdef]
    exact growFetch_min req 4 req m ⟨2, rfl⟩ hm (by omega) hreqm
  · intro i ha hs
    unfold IqLen.has
    rw [is_crossword_eq _ i k hfs hk]
    have hcond : ¬(i.address % (IqLen.init req).fetch_size =
        (IqLen.init req).fetch_size - 2 ∧ i.compressed = false) := by
      rintro ⟨h1, _⟩
      omega
    rw [decide_eq_false hcond, if_neg (by simp)]
    have hlen : (IqLen.init req).len = ((IqLen.init req).fetch_size : Int) := rfl
    simp only [decide_eq_true_eq]
    omega

/-- Witness for C10 at requested size 6: the width rounds up to 8, no
smaller admissible power of two exists, and a word-aligned 4-byte
instruction is already present. -/
theorem init_starts_full_witness :
    (IqLen.init 6).fetch_size ≤ 8 ∧ (IqLen.init 6).has ⟨0, 4, false, false⟩ = true :=
  ⟨(init_starts_full 6).2.2.2.1 8 ⟨3, rfl⟩ (by norm_num) (by norm_num),
   (init_starts_full 6).2.2.2.2.2.2 ⟨0, 4, false, false⟩ (by decide) (by decide)⟩

/-! ### Return-address-stack capacity (claim C5) -/

theorem tail_append_cons (s : List Nat) (a : Nat) (rest : List Nat) :
    (s ++ [a]).tail ++ rest = (s ++ a :: rest).tail := by
  cases s <;> simp

theorem pushAll_stack_formula (d : Nat) (hd : 1 ≤ d) (L : List Nat)
    (s : List Nat) (ld : Option Nat) (hs : s.length ≤ d - 1) :
    (Ras.pushAll { depth := (d : Int) - 1, stack := s, last_dropped := ld } L).stack
      = (s ++ L).drop ((s ++ L).length - (d - 1)) := by
  induction L generalizing s with
  | nil =>
    rw [List.append_nil, Nat.sub_eq_zero_of_le hs, List.drop_zero]
    rfl
  | cons a rest ih =>
    show (Ras.pushAll (Ras.push _ a) rest).stack = _
    unfold Ras.push
    dsimp only
    by_cases hev : s.length + 1 ≤ d - 1
    · rw [if_neg (by simp; omega)]
      rw [ih (s ++ [a]) (by simp; omega)]
      simp [List.append_assoc]
    · rw [if_pos (by simp; omega)]
      rw [ih ((s ++ [a]).tail) (by simp [List.length_tail]; omega)]
      rw [tail_append_cons]
      rw [← List.drop_one, List.drop_drop]
      congr 1
      simp only [List.length_drop, List.length_append, List.length_cons]
      omega

/-- C5: a stack configured with depth `d` holds at most `d − 1`
addresses after any sequence of pushes from fresh, and pushing `d`
addresses and then one more leaves exactly the last pushed addresses,
the oldest surviving entry having been evicted. -/
theorem ras_capacity_and_eviction (d : Nat) (hd : 1 ≤ d) :
    (∀ L : List Nat, ((Ras.init (d : Int)).pushAll L).stack.length ≤ d - 1) ∧
    (∀ (L : List Nat) (x : Nat), L.length = d →
      ((Ras.init (d : Int)).pushAll (L ++ [x])).stack = (L ++ [x]).drop 2) := by
  have hinit : Ras.init (d : Int) =
      { depth := (d : Int) - 1, stack := [], last_dropped := none } := rfl
  constructor
  · intro L
    rw [hinit, pushAll_stack_formula d hd L [] none (by simp)]
    simp only [List.nil_append, List.length_drop]
    omega
  · intro L x hL
    rw [hinit, pushAll_stack_formula d hd (L ++ [x]) [] none (by simp)]
    simp only [List.nil_append]
    congr 1
    simp only [List.length_append, List.length_cons, List.length_nil]
    omega

/-- Witness for C5 with depth 3: three pushes stay within the bound of
two entries, and a fourth push evicts the oldest surviving address. -/
theorem ras_capacity_and_eviction_witness :
    ((Ras.init (3 : Int)).pushAll [10, 20, 30]).stack.length ≤ 2 ∧
      ((Ras.init (3 : Int)).pushAll ([10, 20, 30] ++ [40])).stack
        = ([10, 20, 30] ++ [40]).drop 2 :=
  ⟨(ras_capacity_and_eviction 3 (by norm_num)).1 [10, 20, 30],
   (ras_capacity_and_eviction 3 (by norm_num)).2 [10, 20, 30] 40 (by decide)⟩

/-! ### Last-dropped readback (claim C6) -/

/-- C6: `drop()` stores the popped top (or `none` on an empty stack) in
the last-dropped register, `push` leaves that register alone, and `read`
returns it without consuming it; in particular drop-then-read on a fresh
stack gives `none`, and push-drop-read returns the pushed address. -/
theorem ras_read_last_dropped :
    (∀ r : Ras, (r.drop).last_dropped = r.stack.getLast?) ∧
    (∀ (r : Ras) (a : Nat), (r.push a).last_dropped = r.last_dropped) ∧
    (∀ r : Ras, r.read = r.last_dropped) ∧
    ((Ras.init 2).drop.read = none) ∧
    (∀ a : Nat, (((Ras.init 2).push a).drop).read = some a) := by
  refine ⟨?_, ?_, ?_, rfl, fun a => rfl⟩
  · intro r
    unfold Ras.drop
    cases h : r.stack.getLast? <;> simp [h]
  · intro r a
    unfold Ras.push
    dsimp only
    split <;> rfl
  · intro r
    unfold Ras.read
    cases h : r.last_dropped <;> simp [h]


/-! ### ALU issue with a second arithmetic unit (claim C7) -/

/-- C7 counterexample: from the all-free tracker with the second
arithmetic unit enabled, the first ALU issue reserves ALU2 and leaves
ALU (and BRANCH) free — the claim's unit assignment for the first issue
is reversed. -/
theorem first_alu_issue_reserves_alu2 :
    ((FusBusy.init true).issue_alu).map (fun s => (s.alu, s.branch, s.alu2)) =
      some (false, false, true) := by decide

/-- C7 (amended): with the second arithmetic unit enabled and all units
free, two same-cycle ALU issues both succeed without any busy-unit
assertion firing — the first reserving only ALU2 and the second setting
ALU and BRANCH busy; in general an ALU issue reserves only ALU2 when
ALU2 is free, and otherwise (asserting ALU itself free) sets ALU and
BRANCH busy. -/
theorem alu_issue_reservation (f : FusBusy) :
    (f.alu2_ready = true → f.issue_alu = some { f with alu2 := true }) ∧
    (f.alu2_ready = false → f.alu = false →
      f.issue_alu = some { f with alu := true, branch := true }) ∧
    ((FusBusy.init true).is_ready Fu.ALU = true) ∧
    ((FusBusy.init true).issue_alu = some { FusBusy.init true with alu2 := true }) ∧
    (({ FusBusy.init true with alu2 := true } : FusBusy).is_ready Fu.ALU = true) ∧
    (({ FusBusy.init true with alu2 := true } : FusBusy).issue_alu =
      some { FusBusy.init true with alu2 := true, alu := true, branch := true }) := by
  refine ⟨?_, ?_, by decide, by decide, by decide, by decide⟩
  · intro h
    simp [FusBusy.issue_alu, h]
  · intro h1 h2
    simp [FusBusy.issue_alu, h1, h2]

/-- Witness for the amended C7, replaying the two-issue scenario through
the general reservation rules. -/
theorem alu_issue_reservation_witness :
    (FusBusy.init true).issue_alu = some { FusBusy.init true with alu2 := true } ∧
    ({ FusBusy.init true with alu2 := true } : FusBusy).issue_alu =
      some { FusBusy.init true with alu2 := true, alu := true, branch := true } :=
  ⟨(alu_issue_reservation (FusBusy.init true)).1 (by decide),
   (alu_issue_reservation { FusBusy.init true with alu2 := true }).2.1 (by decide) (by decide)⟩

/-! ### Timed-region filtering (claim C8) -/

theorem filterTimedGo_false_skip (l rest : List TraceInstr)
    (h : ∀ i ∈ l, hasMarker i.hex_code = false) :
    filterTimedGo false (l ++ rest) = filterTimedGo false rest := by
  induction l with
  | nil => rfl
  | cons a as ih =>
    have ha : hasMarker a.hex_code = false := h a (List.mem_cons_self a as)
    show filterTimedGo false (a :: (as ++ rest)) = _
    rw [filterTimedGo, ha]
    simp only [Bool.false_eq_true, if_false]
    exact ih fun i hi => h i (List.mem_cons_of_mem a hi)

theorem filterTimedGo_true_collect (l rest : List TraceInstr)
    (h : ∀ i ∈ l, hasMarker i.hex_code = false) :
    filterTimedGo true (l ++ rest) = l ++ filterTimedGo true rest := by
  induction l with
  | nil => rfl
  | cons a as ih =>
    have ha : hasMarker a.hex_code = false := h a (List.mem_cons_self a as)
    show filterTimedGo true (a :: (as ++ rest)) = _
    rw [filterTimedGo, ha]
    simp only [Bool.false_eq_true, if_false, if_true, List.cons_append]
    rw [ih fun i hi => h i (List.mem_cons_of_mem a hi)]

theorem filterTimedGo_false_drop (l : List TraceInstr)
    (h : ∀ i ∈ l, hasMarker i.hex_code = false) :
    filterTimedGo false l = [] := by
  have := filterTimedGo_false_skip l [] h
  rw [List.append_nil] at this
  rw [this]
  rfl

/-- C8: on a trace made of non-marker lines, a marker, the timed
instructions, a second marker, and trailing non-marker lines,
`filter_timed_part` returns exactly the instructions strictly between
the two markers, in order; every marker line toggles the accepting flag
and is itself excluded. -/
theorem filter_timed_part_between_markers
    (pre mid post : List TraceInstr) (m1 m2 : TraceInstr)
    (hpre : ∀ i ∈ pre, hasMarker i.hex_code = false)
    (hm1 : hasMarker m1.hex_code = true)
    (hmid : ∀ i ∈ mid, hasMarker i.hex_code = false)
    (hm2 : hasMarker m2.hex_code = true)
    (hpost : ∀ i ∈ post, hasMarker i.hex_code = false) :
    filter_timed_part (pre ++ m1 :: (mid ++ m2 :: post)) = mid := by
  unfold filter_timed_part
  rw [filterTimedGo_false_skip pre _ hpre]
  rw [filterTimedGo, hm1]
  simp only [if_true, Bool.not_false]
  rw [filterTimedGo_true_collect mid _ hmid]
  rw [filterTimedGo, hm2]
  simp only [if_true, Bool.not_true]
  rw [filterTimedGo_false_drop post hpost, List.append_nil]

/-- Witness for C8: a marker line, ten instruction lines, a second
marker line, then unrelated lines, yields exactly the ten instructions. -/
theorem filter_timed_part_between_markers_witness :
    filter_timed_part ([] ++ (⟨"0x32951073", 100⟩ : TraceInstr) ::
        ([⟨"0x00000013", 101⟩, ⟨"0x00000097", 102⟩, ⟨"0x00000113", 103⟩,
          ⟨"0x00000193", 104⟩, ⟨"0x00000213", 105⟩, ⟨"0x00000293", 106⟩,
          ⟨"0x00000313", 107⟩, ⟨"0x00000393", 108⟩, ⟨"0x00000413", 109⟩,
          ⟨"0x00000493", 110⟩] ++ (⟨"0x32951073", 111⟩ : TraceInstr) ::
          [⟨"0x00000513", 112⟩, ⟨"0x00000593", 113⟩]))
      = [⟨"0x00000013", 101⟩, ⟨"0x00000097", 102⟩, ⟨"0x00000113", 103⟩,
         ⟨"0x00000193", 104⟩, ⟨"0x00000213", 105⟩, ⟨"0x00000293", 106⟩,
         ⟨"0x00000313", 107⟩, ⟨"0x00000393", 108⟩, ⟨"0x00000413", 109⟩,
         ⟨"0x00000493", 110⟩] :=
  filter_timed_part_between_markers [] _ _ ⟨"0x32951073", 100⟩ ⟨"0x32951073", 111⟩
    (by decide) (by decide) (by decide) (by decide) (by decide)

/-! ### Insufficient trace data (claim C9) -/

/-- C9: the `cycle_count.py` entry point is fatal on insufficient data —
with no marker the timed region is empty and `count_cycles` raises
`IndexError`; with a single timed instruction the throughput division
raises `ZeroDivisionError`; only `compute_accuracy.main` reports
insufficient data and skips the computation. -/
theorem insufficient_data_fatal_in_cycle_count :
    countMarkers [⟨"0x00000013", 5⟩] = 0 ∧
    run_cycle_count [⟨"0x00000013", 5⟩] = Except.error "IndexError" ∧
    run_cycle_count [⟨"0x32951073", 1⟩, ⟨"0x00000013", 4⟩, ⟨"0x32951073", 9⟩]
      = Except.error "ZeroDivisionError" ∧
    accuracy_main [] [] = AccuracyOutcome.insufficient :=
  ⟨by decide, rfl, rfl, by decide⟩


/-! ### Branch history table (claim C4) -/

theorem bht_resolve_length (b : Bht) (a : Nat) (t : Bool) :
    (b.resolve a t).contents.length = b.contents.length := by
  simp [Bht.resolve]

theorem bht_resolve_index (b : Bht) (a : Nat) (t : Bool) (x : Nat) :
    (b.resolve a t).index x = b.index x := by
  unfold Bht.index
  rw [bht_resolve_length]

theorem bht_index_lt (b : Bht) (x : Nat) (h : 0 < b.contents.length) :
    b.index x < b.contents.length := Nat.mod_lt _ h

theorem bht_slot_resolve_self (b : Bht) (a : Nat) (t : Bool)
    (h : b.index a < b.contents.length) :
    (b.resolve a t).slot (b.index a) = resolveEntry (b.slot (b.index a)) t := by
  simp [Bht.slot, Bht.resolve, List.getD_eq_getElem?_getD, List.getElem?_set_self h]

theorem bht_slot_resolve_ne (b : Bht) (a : Nat) (t : Bool) (j : Nat)
    (h : b.index a ≠ j) : (b.resolve a t).slot j = b.slot j := by
  simp [Bht.slot, Bht.resolve, List.getD_eq_getElem?_getD, List.getElem?_set_ne h]

theorem resolveEntry_valid (e : BhtEntry) (t : Bool) :
    (resolveEntry e t).valid = true := by
  unfold resolveEntry
  dsimp only
  split <;> split <;> rfl

theorem bht_slot_init (n j : Nat) : (Bht.init n).slot j = BhtEntry.initial := by
  simp only [Bht.slot, Bht.init, List.getD_eq_getElem?_getD, List.getElem?_replicate]
  split <;> rfl

theorem bht_valid_applyResolves (ops : List (Nat × Bool)) (b : Bht) (j : Nat)
    (h : j < b.contents.length) :
    ((b.applyResolves ops).slot j).valid = true ↔
      ((b.slot j).valid = true ∨ ∃ p ∈ ops, b.index p.1 = j) := by
  induction ops generalizing b with
  | nil => simp [Bht.applyResolves]
  | cons p rest ih =>
    show ((Bht.applyResolves (b.resolve p.1 p.2) rest).slot j).valid = true ↔ _
    have hlen : j < (b.resolve p.1 p.2).contents.length := by
      rw [bht_resolve_length]; exact h
    rw [ih (b.resolve p.1 p.2) hlen]
    have hidx : ∀ x, (b.resolve p.1 p.2).index x = b.index x :=
      bht_resolve_index b p.1 p.2
    by_cases hj : b.index p.1 = j
    · subst hj
      rw [bht_slot_resolve_self b p.1 p.2 h]
      simp only [resolveEntry_valid, hidx, List.mem_cons]
      constructor
      · intro _
        exact Or.inr ⟨p, Or.inl rfl, rfl⟩
      · intro _
        exact Or.inl trivial
    · rw [bht_slot_resolve_ne b p.1 p.2 j hj]
      simp only [hidx, List.mem_cons]
      constructor
      · rintro (hv | ⟨q, hq, hqi⟩)
        · exact Or.inl hv
        · exact Or.inr ⟨q, Or.inr hq, hqi⟩
      · rintro (hv | ⟨q, hq | hq, hqi⟩)
        · exact Or.inl hv
        · subst hq
          exact absurd hqi hj
        · exact Or.inr ⟨q, hq, hqi⟩

/-- The range every reachable saturating counter stays in. -/
def Bht.CountersInRange (b : Bht) : Prop :=
  ∀ j, 0 ≤ (b.slot j).sat_counter ∧ (b.slot j).sat_counter ≤ 3

theorem resolveEntry_counter_range (e : BhtEntry) (t : Bool)
    (h : 0 ≤ e.sat_counter ∧ e.sat_counter ≤ 3) :
    0 ≤ (resolveEntry e t).sat_counter ∧ (resolveEntry e t).sat_counter ≤ 3 := by
  unfold resolveEntry
  dsimp only
  split <;> split <;> dsimp only <;> omega

theorem bht_resolve_range (b : Bht) (a : Nat) (t : Bool)
    (hb : b.CountersInRange) : (b.resolve a t).CountersInRange := by
  intro j
  by_cases hj : b.index a = j
  · subst hj
    by_cases hlt : b.index a < b.contents.length
    · rw [bht_slot_resolve_self b a t hlt]
      exact resolveEntry_counter_range _ t (hb _)
    · have : (b.resolve a t).slot (b.index a) = b.slot (b.index a) := by
        simp only [Bht.slot, Bht.resolve, List.getD_eq_getElem?_getD]
        rw [List.getElem?_set_self' ]
        simp [List.getElem?_eq_none (by omega : b.contents.length ≤ b.index a)]
      rw [this]
      exact hb _
  · rw [bht_slot_resolve_ne b a t j hj]
    exact hb j

theorem bht_applyResolves_range (ops : List (Nat × Bool)) (b : Bht)
    (hb : b.CountersInRange) : (b.applyResolves ops).CountersInRange := by
  induction ops generalizing b with
  | nil => exact hb
  | cons p rest ih =>
    show (Bht.applyResolves (b.resolve p.1 p.2) rest).CountersInRange
    exact ih _ (bht_resolve_range b p.1 p.2 hb)

theorem bht_init_range (n : Nat) : (Bht.init n).CountersInRange := by
  intro j
  rw [bht_slot_init]
  exact ⟨by decide, by decide⟩

theorem predict_eq_slot (b : Bht) (addr : Nat) :
    b.predict addr =
      if (b.slot (b.index addr)).valid then
        some (decide ((b.slot (b.index addr)).sat_counter ≥ 2))
      else none := rfl

theorem resolveEntry_four_true (e : BhtEntry)
    (h : 0 ≤ e.sat_counter ∧ e.sat_counter ≤ 3) :
    resolveEntry (resolveEntry (resolveEntry (resolveEntry e true) true) true) true =
      { valid := true, sat_counter := 3 } := by
  obtain ⟨v, c⟩ := e
  obtain ⟨h0, h3⟩ := h
  unfold resolveEntry
  dsimp only at h0 h3 ⊢
  interval_cases c <;> decide

theorem resolveEntry_four_false (e : BhtEntry)
    (h : 0 ≤ e.sat_counter ∧ e.sat_counter ≤ 3) :
    resolveEntry (resolveEntry (resolveEntry (resolveEntry e false) false) false) false =
      { valid := true, sat_counter := 0 } := by
  obtain ⟨v, c⟩ := e
  obtain ⟨h0, h3⟩ := h
  unfold resolveEntry
  dsimp only at h0 h3 ⊢
  interval_cases c <;> decide

theorem bht_resolve_pos (b : Bht) (a : Nat) (t : Bool) (h : 0 < b.contents.length) :
    0 < (b.resolve a t).contents.length := by
  rw [bht_resolve_length]; exact h

theorem bht_slot_after_resolve_addr (b : Bht) (addr : Nat) (t : Bool)
    (h : 0 < b.contents.length) :
    (b.resolve addr t).slot ((b.resolve addr t).index addr) =
      resolveEntry (b.slot (b.index addr)) t := by
  rw [bht_resolve_index]
  exact bht_slot_resolve_self b addr t (bht_index_lt b addr h)

theorem bht_four_resolves_slot (b : Bht) (addr : Nat) (t : Bool)
    (h : 0 < b.contents.length) :
    (b.applyResolves [(addr, t), (addr, t), (addr, t), (addr, t)]).slot
        ((b.applyResolves [(addr, t), (addr, t), (addr, t), (addr, t)]).index addr) =
      resolveEntry (resolveEntry (resolveEntry (resolveEntry
        (b.slot (b.index addr)) t) t) t) t := by
  have h1 := bht_resolve_pos b addr t h
  have h2 := bht_resolve_pos _ addr t h1
  have h3 := bht_resolve_pos _ addr t h2
  show ((((b.resolve addr t).resolve addr t).resolve addr t).resolve addr t).slot
      (((((b.resolve addr t).resolve addr t).resolve addr t).resolve addr t).index addr)
    = _
  rw [bht_slot_after_resolve_addr _ addr t h3,
    bht_slot_after_resolve_addr _ addr t h2,
    bht_slot_after_resolve_addr _ addr t h1,
    bht_slot_after_resolve_addr _ addr t h]


theorem bht_applyResolves_index (ops : List (Nat × Bool)) (b : Bht) (x : Nat) :
    (b.applyResolves ops).index x = b.index x := by
  induction ops generalizing b with
  | nil => rfl
  | cons p rest ih =>
    show (Bht.applyResolves (b.resolve p.1 p.2) rest).index x = b.index x
    rw [ih, bht_resolve_index]

theorem resolveEntry_sat_formula (e : BhtEntry) (t : Bool)
    (h0 : 0 ≤ e.sat_counter) (h3 : e.sat_counter ≤ 3) :
    (resolveEntry e t).sat_counter =
      if t then min (e.sat_counter + 1) 3 else max (e.sat_counter - 1) 0 := by
  obtain ⟨v, c⟩ := e
  simp only at h0 h3
  unfold resolveEntry
  dsimp only
  cases t
  · simp only [Bool.false_eq_true, if_false]
    by_cases hc : (0 : Int) < c
    · rw [if_pos hc]
      simp only
      omega
    · rw [if_neg hc]
      simp only
      omega
  · simp only [if_true]
    by_cases hc : c < (3 : Int)
    · rw [if_pos hc]
      simp only
      omega
    · rw [if_neg hc]
      simp only
      omega

/-- C4: from the fresh 128-entry table, `predict` answers unknown
exactly when no `resolve` ever hit the queried slot; every reachable
counter stays in `[0, 3]`; a single `resolve` marks the slot valid and
moves its counter by one, capped at 3 and floored at 0; and four
consecutive taken (resp. not-taken) resolutions from any in-range state
saturate the counter at 3 (resp. 0) and make `predict` answer taken
(resp. not-taken). -/
theorem bht_saturating_predictor :
    (∀ (ops : List (Nat × Bool)) (addr : Nat),
      (Bht.applyResolves (Bht.init 128) ops).predict addr = none ↔
        ∀ p ∈ ops, (Bht.init 128).index p.1 ≠ (Bht.init 128).index addr) ∧
    (∀ (ops : List (Nat × Bool)) (j : Nat),
      0 ≤ ((Bht.applyResolves (Bht.init 128) ops).slot j).sat_counter ∧
        ((Bht.applyResolves (Bht.init 128) ops).slot j).sat_counter ≤ 3) ∧
    (∀ (b : Bht) (addr : Nat) (t : Bool), 0 < b.contents.length →
      0 ≤ (b.slot (b.index addr)).sat_counter →
      (b.slot (b.index addr)).sat_counter ≤ 3 →
      ((b.resolve addr t).slot (b.index addr)).valid = true ∧
      ((b.resolve addr t).slot (b.index addr)).sat_counter =
        (if t then min ((b.slot (b.index addr)).sat_counter + 1) 3
         else max ((b.slot (b.index addr)).sat_counter - 1) 0)) ∧
    (∀ (b : Bht) (addr : Nat), 0 < b.contents.length →
      0 ≤ (b.slot (b.index addr)).sat_counter →
      (b.slot (b.index addr)).sat_counter ≤ 3 →
      (b.applyResolves [(addr, true), (addr, true), (addr, true), (addr, true)]).predict addr
          = some true ∧
      ((b.applyResolves [(addr, true), (addr, true), (addr, true), (addr, true)]).slot
          ((b.applyResolves [(addr, true), (addr, true), (addr, true), (addr, true)]).index
            addr)).sat_counter = 3) ∧
    (∀ (b : Bht) (addr : Nat), 0 < b.contents.length →
      0 ≤ (b.slot (b.index addr)).sat_counter →
      (b.slot (b.index addr)).sat_counter ≤ 3 →
      (b.applyResolves [(addr, false), (addr, false), (addr, false), (addr, false)]).predict
          addr = some false ∧
      ((b.applyResolves [(addr, false), (addr, false), (addr, false), (addr, false)]).slot
          ((b.applyResolves [(addr, false), (addr, false), (addr, false), (addr, false)]).index
            addr)).sat_counter = 0) := by
  have hlen128 : (Bht.init 128).contents.length = 128 := by simp [Bht.init]
  refine ⟨?_, ?_, ?_, ?_, ?_⟩
  · intro ops addr
    have hBidx : (Bht.applyResolves (Bht.init 128) ops).index addr =
        (Bht.init 128).index addr := bht_applyResolves_index ops (Bht.init 128) addr
    have hjlt : (Bht.init 128).index addr < (Bht.init 128).contents.length :=
      bht_index_lt _ _ (by omega)
    have hvalid := bht_valid_applyResolves ops (Bht.init 128)
      ((Bht.init 128).index addr) hjlt
    rw [bht_slot_init] at hvalid
    rw [predict_eq_slot, hBidx]
    constructor
    · intro hnone p hp heq
      have hv : ((Bht.applyResolves (Bht.init 128) ops).slot
          ((Bht.init 128).index addr)).valid = true :=
        hvalid.mpr (Or.inr ⟨p, hp, heq⟩)
      rw [if_pos hv] at hnone
      exact Option.noConfusion hnone
    · intro hall
      have hnv : ¬ (((Bht.applyResolves (Bht.init 128) ops).slot
          ((Bht.init 128).index addr)).valid = true) := by
        rw [hvalid]
        rintro (hf | ⟨p, hp, hip⟩)
        · exact absurd hf (by simp [BhtEntry.initial])
        · exact hall p hp hip
      rw [if_neg hnv]
  · intro ops j
    exact bht_applyResolves_range ops (Bht.init 128) (bht_init_range 128) j
  · intro b addr t h0 hr0 hr3
    rw [bht_slot_resolve_self b addr t (bht_index_lt b addr h0)]
    exact ⟨resolveEntry_valid _ t, resolveEntry_sat_formula _ t hr0 hr3⟩
  · intro b addr h0 hr0 hr3
    have hslot := bht_four_resolves_slot b addr true h0
    rw [resolveEntry_four_true _ ⟨hr0, hr3⟩] at hslot
    refine ⟨?_, by rw [hslot]⟩
    rw [predict_eq_slot, hslot]
    rfl
  · intro b addr h0 hr0 hr3
    have hslot := bht_four_resolves_slot b addr false h0
    rw [resolveEntry_four_false _ ⟨hr0, hr3⟩] at hslot
    refine ⟨?_, by rw [hslot]⟩
    rw [predict_eq_slot, hslot]
    rfl

/-- Witness for C4: four taken resolutions at address 8 from the fresh
table saturate its slot and flip the prediction to taken, and the fresh
table answers unknown for the empty resolution history. -/
theorem bht_saturating_predictor_witness :
    ((Bht.applyResolves (Bht.init 128)
        [(8, true), (8, true), (8, true), (8, true)]).predict 8 = some true) ∧
    ((Bht.applyResolves (Bht.init 128) []).predict 8 = none ↔
      ∀ p ∈ ([] : List (Nat × Bool)),
        (Bht.init 128).index p.1 ≠ (Bht.init 128).index 8) :=
  ⟨(bht_saturating_predictor.2.2.2.1 (Bht.init 128) 8 (by decide) (by decide)
      (by decide)).1,
   bht_saturating_predictor.1 [] 8⟩

end CycleCount
